import Mathlib

/-!
Shallow embedding of `scripts/phi/binning_routines.py` (GInCovPipe):
phi estimation (`optim`), per-bin attribute extraction
(`infer_bin_attributes`), fixed-width binning (`binning_equal_days`),
fixed-size binning (`binning_equal_size`) and the aggregator
(`calculate_phi_per_bin`), together with theorems about them.

Modelling conventions:
* pandas/numpy floats are modelled as `ℚ`; a value that can be NaN is
  modelled by `Option` (`none` = NaN) or by an explicit constructor.
* A python exception (for example `max()` of an empty sequence, raising
  `ValueError`) is modelled by the function returning `none`.
* The day offset `t` is modelled as an always-present integer: rows with a
  missing `t` never enter any bin (every comparison with NaN is false), and
  python's builtin `min`/`max` over a column containing NaN is not well
  defined (it depends on element order), so the development covers tables
  whose `t` column is fully present.  The calendar date may be missing and
  is modelled as `Option ℤ` (a day number).
* The `while` loops are modelled with an explicit iteration budget (`fuel`)
  that the wrappers instantiate with a bound strictly larger than the number
  of iterations the source can perform; a source-side infinite loop (width
  `≤ 0` in `binning_equal_days`) exhausts the budget and is modelled as
  `none`.
-/

namespace GInCovPipe

/- Batteries marks the arithmetic on `Rat` `@[irreducible]`; re-enable
unfolding locally so that `decide` can evaluate the model on the concrete
witness inputs. -/
attribute [local semireducible] Rat.add Rat.mul Rat.inv Rat.sub

/-- One sequence record of the input table: integer day offset `t`, optional
calendar date (as a day number) and the whitespace-separated SNV string
(`""` means "no mutations, reference haplotype"). -/
structure Row where
  t : ℤ
  date : Option ℤ
  snvs : String
deriving DecidableEq, Repr

/-- Result of `optim(n_haplo, n_mut)`.  `zero` is the python int `0` returned
for a degenerate bin, `nan` is `np.nan`, and `minimized hr mr` abstracts the
finite float `sol.x[0]` returned by the scipy Nelder-Mead minimizer on the
rates `hr`, `mr` (the numeric value of the minimizer is outside the scope of
the claims; what matters is that it is none of the two sentinels). -/
inductive PhiVal where
  | zero
  | nan
  | minimized (haploRate mutRate : ℚ)
deriving DecidableEq, Repr

/-- Whether a `PhiVal` is the NaN sentinel. -/
def PhiVal.isNaN : PhiVal → Bool
  | .nan => true
  | _ => false

/-- Source lines 21-43, `optim(n_haplo, n_mut)`:
`if (n_haplo==0) or (n_mut==0): return 0`,
`elif n_haplo >= n_mut: return np.nan`,
`else: return sol.x[0]` (Nelder-Mead on `get_phi`). -/
def optim (n_haplo n_mut : ℚ) : PhiVal :=
  if n_haplo = 0 ∨ n_mut = 0 then PhiVal.zero
  else if n_haplo ≥ n_mut then PhiVal.nan
  else PhiVal.minimized n_haplo n_mut

/-- Fold of `max` over a list with an initial value. -/
def foldlMax (x : ℤ) (xs : List ℤ) : ℤ := xs.foldl max x

/-- Fold of `min` over a list with an initial value. -/
def foldlMin (x : ℤ) (xs : List ℤ) : ℤ := xs.foldl min x

/-- Models python's builtin `max` over a column: `none` models the
`ValueError` raised on an empty sequence. -/
def colMax : List ℤ → Option ℤ
  | [] => none
  | x :: xs => some (foldlMax x xs)

/-- Models python's builtin `min` over a column: `none` models the
`ValueError` raised on an empty sequence. -/
def colMin : List ℤ → Option ℤ
  | [] => none
  | x :: xs => some (foldlMin x xs)

/-- Maximum of the `t` column of a table, `max(table['t'])`. -/
def maxOfT (table : List Row) : Option ℤ := colMax (table.map Row.t)

/-- Models python's builtin `round` on a finite float: round half to even. -/
def pyRound (q : ℚ) : ℤ :=
  if q - Int.floor q < 1/2 then Int.floor q
  else if (1 : ℚ)/2 < q - Int.floor q then Int.floor q + 1
  else if Int.floor q % 2 = 0 then Int.floor q else Int.floor q + 1

/-- Tokeniser behind `pySplit`: splits a character list at spaces, dropping
empty pieces, as python's `str.split()` does (the SNV identifiers in the data
are separated by single spaces). -/
def splitChars : List Char → List Char → List (List Char)
  | [], acc => if acc = [] then [] else [acc.reverse]
  | c :: cs, acc =>
    if c = ' ' then
      (if acc = [] then splitChars cs [] else acc.reverse :: splitChars cs [])
    else splitChars cs (c :: acc)

/-- Models python's `str.split()` with no argument: split on whitespace,
dropping empty pieces. -/
def pySplit (s : String) : List String :=
  (splitChars s.toList []).map (fun cs => String.mk cs)

/-- Models `Series.std()` (sample standard deviation, `ddof = 1`) of the `t`
column, represented by its square (the sample variance) so that it lives in
`ℚ`: the result is `none` (NaN) exactly when the series has fewer than two
observations, otherwise `some` of `Σ (x − mean)² / (n − 1)`.  The source's
`t_sd` is the square root of this value; being a square root, it is NaN, zero
or defined exactly when this value is. -/
def pandasStdSq (xs : List ℤ) : Option ℚ :=
  if xs.length ≤ 1 then none
  else
    some ((((xs.map (fun x => ((x : ℚ) -
        (xs.map (fun y => (y : ℚ))).sum / (xs.length : ℚ))^2)).sum) /
      ((xs.length : ℚ) - 1)))

/-- The record built by `infer_bin_attributes` (plus the `binning` label that
the two binners add with `dict.update`).  `t_sd` holds the squared standard
deviation, see `pandasStdSq`. -/
structure BinRow where
  t : ℤ
  t_sd : Option ℚ
  phi : PhiVal
  sampleSize : ℕ
  num_mut : ℕ
  daysPerBin : ℤ
  haplotypes : ℕ
  n_mut_types : ℕ
  binning : String
deriving DecidableEq, Repr

/-- Source lines 100-132, `infer_bin_attributes(subsample_table)`.  Returns
`none` for an empty table, where the source's `round` of the NaN mean raises
`ValueError`; both binners only ever pass non-empty tables.  The weight `w`
computed on line 124 is never placed in the returned dict (it is dead code)
and is omitted.  The `binning` field is initialised to `""` and overwritten
by the callers via `dict.update`. -/
def infer_bin_attributes : List Row → Option BinRow
  | [] => none
  | r :: rs =>
    let sub := r :: rs
    let ts := sub.map Row.t
    let from_t := foldlMin r.t (rs.map Row.t)
    let to_t := foldlMax r.t (rs.map Row.t)
    let d : ℤ := to_t - from_t + 1
    let N_seq := sub.length
    let num_mut := N_seq - sub.countP (fun x => decide (x.snvs = ""))
    let n_haplos := (sub.map Row.snvs).dedup.length
    let n_mut_types := ((sub.map (fun x => pySplit x.snvs)).flatten).dedup.length
    let bin_t := pyRound ((ts.map (fun z => (z : ℚ))).sum / (N_seq : ℚ))
    let bin_t_sd := pandasStdSq ts
    let phi := optim ((n_haplos : ℚ) / (d : ℚ)) ((num_mut : ℚ) / (d : ℚ))
    some { t := bin_t, t_sd := bin_t_sd, phi := phi, sampleSize := N_seq,
           num_mut := num_mut, daysPerBin := d, haplotypes := n_haplos,
           n_mut_types := n_mut_types, binning := "" }

/-- The `while to_t < max(t)` loop of `binning_equal_days` (source lines
146-156), returning the list of the non-empty subsample tables it selects
(one per emitted bin; an empty window is skipped and not emitted, exactly as
the `if not subsample_table.empty` check does).  `fuel` bounds the number of
iterations; the wrapper passes a budget strictly larger than the number of
iterations possible for `days ≥ 1`, and for `days ≤ 0` (where the source
loops forever) the budget runs out and the result is `none`. -/
def eqDaysLoop (table : List Row) (days maxT : ℤ) :
    ℕ → ℤ → ℤ → Option (List (List Row))
  | 0, _, _ => none
  | fuel + 1, from_t, to_t =>
    if to_t < maxT then
      match eqDaysLoop table days maxT fuel (from_t + days) (to_t + days) with
      | none => none
      | some ws =>
        some (if (table.filter (fun x => decide (from_t ≤ x.t ∧ x.t ≤ to_t))).isEmpty
          then ws
          else (table.filter (fun x => decide (from_t ≤ x.t ∧ x.t ≤ to_t))) :: ws)
    else some []

/-- Applies `infer_bin_attributes` to every window and tags the result with
the `binning` label, modelling the body of the binner loops
(`phi_per_bin = infer_bin_attributes(subsample_table)` followed by
`phi_per_bin.update({"binning": label})` and the `pd.concat`).  Returns
`none` as soon as one window fails (never happens: all windows are
non-empty). -/
def attachLabel (label : String) : List (List Row) → Option (List BinRow)
  | [] => some []
  | w :: ws =>
    match infer_bin_attributes w, attachLabel label ws with
    | some b, some bs => some ({ b with binning := label } :: bs)
    | _, _ => none

/-- Source lines 135-159, `binning_equal_days(seq_info_short_table, days)`:
`from_t = min(table['t'])`, `to_t = from_t + days - 1`, then the window loop.
`none` models the `ValueError` python's `min`/`max` raise on an empty table,
and the non-termination of the loop for `days ≤ 0`. -/
def binning_equal_days (table : List Row) (days : ℤ) : Option (List BinRow) :=
  match table with
  | [] => none
  | r :: rs =>
    match eqDaysLoop (r :: rs) days (foldlMax r.t (rs.map Row.t))
        ((foldlMax r.t (rs.map Row.t) - foldlMin r.t (rs.map Row.t)).toNat + 2)
        (foldlMin r.t (rs.map Row.t)) (foldlMin r.t (rs.map Row.t) + days - 1) with
    | none => none
    | some ws => attachLabel ("eq_days_" ++ toString days) ws

/-- Models `np.searchsorted(ts, v)` (side `left`) on a column sorted
ascending: the first index whose value is `≥ v`, or the length of the list
when every value is `< v`. -/
def searchsorted (ts : List ℤ) (v : ℤ) : ℕ :=
  match ts with
  | [] => 0
  | x :: xs => if v ≤ x then 0 else searchsorted xs v + 1

/-- The `while` loop of `binning_equal_size` (source lines 177-198),
returning the list of subsample tables it selects.  Each iteration:
`actual_index = searchsorted(t, from_t)`;
`sub = table.iloc[actual_index : min(actual_index+s, len(table))]`
(`take s` of `drop actual_index` is the same slice);
`to_t = max(sub['t'])` (`none` models the `ValueError` on an empty slice);
if `from_t == to_t` the window is replaced by all rows of that day;
the window is emitted and `from_t = to_t + 1`.  The guard
`(to_t < max(t)) & (actual_index + s <= len(table))` is re-evaluated with the
updated `actual_index`.  `fuel` bounds the iterations; the wrapper's budget
strictly exceeds what the loop can consume. -/
def eqSizeLoop (table : List Row) (s : ℕ) :
    ℕ → ℤ → ℤ → ℕ → Option (List (List Row))
  | 0, _, _, _ => none
  | fuel + 1, from_t, to_t, actual_index =>
    match maxOfT table with
    | none => none
    | some maxT =>
      if to_t < maxT ∧ actual_index + s ≤ table.length then
        match maxOfT ((table.drop (searchsorted (table.map Row.t) from_t)).take s) with
        | none => none
        | some to_t2 =>
          match eqSizeLoop table s fuel (to_t2 + 1) to_t2
              (searchsorted (table.map Row.t) from_t) with
          | none => none
          | some ws =>
            some ((if from_t = to_t2 then
                table.filter (fun x => decide (x.t = to_t2))
              else (table.drop (searchsorted (table.map Row.t) from_t)).take s) :: ws)
      else some []

/-- Source lines 162-199, `binning_equal_size(seq_info_short_table, s)`:
the loop starts with `from_t = 0`, `to_t = 0`, `actual_index = 0` (the
`reset_index` is the identity on our row lists). -/
def binning_equal_size (table : List Row) (s : ℕ) : Option (List BinRow) :=
  match eqSizeLoop table s (((maxOfT table).getD 0).toNat + 2) 0 0 0 with
  | none => none
  | some ws => attachLabel ("eq_size_" ++ toString s) ws

/-- A row of the final table: the bin attributes plus the derived calendar
`date = minDate + t days` column added on source line 221. -/
structure OutRow extends BinRow where
  date : ℤ
deriving DecidableEq, Repr

/-- Whether a concatenated row contains a NaN entry.  In the model the only
fields that can be NaN are `t_sd` (bins with a single sequence) and `phi`
(unsolvable bins); every other field of the dict built by
`infer_bin_attributes` is an integer or a string. -/
def rowHasNaN (b : BinRow) : Bool := b.t_sd.isNone || b.phi.isNaN

/-- The first aggregation loop of `calculate_phi_per_bin` (source lines
209-211): concatenate `binning_equal_days(table, days)` over the
configured widths, in list order. -/
def concatDays (table : List Row) : List ℤ → Option (List BinRow)
  | [] => some []
  | d :: ds =>
    match binning_equal_days table d, concatDays table ds with
    | some b, some rest => some (b ++ rest)
    | _, _ => none

/-- The second aggregation loop of `calculate_phi_per_bin` (source lines
213-215): concatenate `binning_equal_size(table, s)` over the configured
sizes, in list order. -/
def concatSizes (table : List Row) : List ℕ → Option (List BinRow)
  | [] => some []
  | s :: ss =>
    match binning_equal_size table s, concatSizes table ss with
    | some b, some rest => some (b ++ rest)
    | _, _ => none

/-- The concatenated per-bin table right before the `dropna` on source line
218: all fixed-width results (in width-list order) followed by all
fixed-size results (in size-list order). -/
def concatenated_bins (table : List Row) (seqs_per_bin : List ℕ)
    (days_per_bin : List ℤ) : Option (List BinRow) :=
  match concatDays table days_per_bin, concatSizes table seqs_per_bin with
  | some a, some b => some (a ++ b)
  | _, _ => none

/-- Insertion step of the date sort: keeps earlier rows with the same date in
front of the inserted row. -/
def insertByDate (r : OutRow) : List OutRow → List OutRow
  | [] => [r]
  | x :: xs => if x.date ≤ r.date then x :: insertByDate r xs else r :: x :: xs

/-- Models `sort_values(by='date')` on source line 224 as a stable insertion
sort by ascending `date`.  Note: pandas' default sort kind is `quicksort`,
which does not guarantee a stable order among rows with equal `date`; this
model fixes the stable order, so only properties that are invariant under
permutations of equal-date rows (membership, sortedness by `date`) transfer
to the source. -/
def sortByDate : List OutRow → List OutRow
  | [] => []
  | x :: xs => insertByDate x (sortByDate xs)

/-- Source lines 203-226, `calculate_phi_per_bin(table, seqs_per_bin,
days_per_bin)`: `minDate = min(table['date'].dropna())` (`none` models the
`ValueError` when every date is missing), the two concatenation loops, the
`dropna()` removing every row with a NaN entry, the derived `date` column and
the final sort by `date`. -/
def calculate_phi_per_bin (table : List Row) (seqs_per_bin : List ℕ)
    (days_per_bin : List ℤ) : Option (List OutRow) :=
  match colMin (table.filterMap Row.date) with
  | none => none
  | some minDate =>
    match concatenated_bins table seqs_per_bin days_per_bin with
    | none => none
    | some allBins =>
      some (sortByDate ((allBins.filter (fun b => !rowHasNaN b)).map
        (fun b => { toBinRow := b, date := minDate + b.t })))

/-- Concrete input: one sequence per day for days `0..9`, no mutations, all
dated day `0`. -/
def sampleTableTen : List Row :=
  [⟨0, some 0, ""⟩, ⟨1, some 0, ""⟩, ⟨2, some 0, ""⟩, ⟨3, some 0, ""⟩,
   ⟨4, some 0, ""⟩, ⟨5, some 0, ""⟩, ⟨6, some 0, ""⟩, ⟨7, some 0, ""⟩,
   ⟨8, some 0, ""⟩, ⟨9, some 0, ""⟩]

/-- Concrete input: two sequences on days `0` and `1`. -/
def pairTable : List Row := [⟨0, some 0, ""⟩, ⟨1, some 0, ""⟩]

/-- Concrete input: four sequences on days `0, 0, 1, 5`, sorted by `t`. -/
def sizeTable : List Row :=
  [⟨0, some 0, ""⟩, ⟨0, some 0, ""⟩, ⟨1, some 0, ""⟩, ⟨5, some 0, ""⟩]

/-- Concrete input: two mutated sequences on day `0` sharing one haplotype
and one reference sequence on day `5`, dated day `7`. -/
def tripleTable : List Row :=
  [⟨0, some 7, "a"⟩, ⟨0, some 7, "a"⟩, ⟨5, some 7, ""⟩]

/-- Concrete input: a single reference sequence on day `0`. -/
def singleTable : List Row := [⟨0, none, ""⟩]

/-- Concrete input: two reference sequences on days `0` and `2`. -/
def spreadTable : List Row := [⟨0, none, ""⟩, ⟨2, none, ""⟩]

/-- The bin record of the single window `[0,0]` of `pairTable` (width 1). -/
def pairBin : BinRow := ⟨0, none, PhiVal.zero, 1, 0, 1, 1, 0, "eq_days_1"⟩

/-- The bin record of `singleTable` as one bin. -/
def singleBin : BinRow := ⟨0, none, PhiVal.zero, 1, 0, 1, 1, 0, ""⟩

/-- The bin record of `spreadTable` as one bin. -/
def spreadBin : BinRow := ⟨1, some 2, PhiVal.zero, 2, 0, 3, 1, 0, ""⟩

/-- First bin of `binning_equal_days sizeTable 1`. -/
def daysBinA : BinRow := ⟨0, some 0, PhiVal.zero, 2, 0, 1, 1, 0, "eq_days_1"⟩

/-- Second bin of `binning_equal_days sizeTable 1`. -/
def daysBinB : BinRow := ⟨1, none, PhiVal.zero, 1, 0, 1, 1, 0, "eq_days_1"⟩

/-- First bin of `binning_equal_size sizeTable 2`. -/
def sizeBinA : BinRow := ⟨0, some 0, PhiVal.zero, 2, 0, 1, 1, 0, "eq_size_2"⟩

/-- Second bin of `binning_equal_size sizeTable 2`. -/
def sizeBinB : BinRow := ⟨3, some 8, PhiVal.zero, 2, 0, 5, 1, 0, "eq_size_2"⟩

/-- The windows selected by the fixed-size loop on `sizeTable` with size 2. -/
def sizeWindows : List (List Row) :=
  [[⟨0, some 0, ""⟩, ⟨0, some 0, ""⟩], [⟨1, some 0, ""⟩, ⟨5, some 0, ""⟩]]

/-- The single concatenated bin of `tripleTable` with widths `[2]`. -/
def tripleBin : BinRow := ⟨0, some 0, PhiVal.minimized 1 2, 2, 2, 1, 1, 1, "eq_days_2"⟩

/-- The single aggregated output row of `tripleTable` with widths `[2]`. -/
def tripleOut : OutRow := ⟨tripleBin, 7⟩

/-! Basic facts about the fold-based column minima and maxima. -/

theorem le_foldlMax_init (x : ℤ) (xs : List ℤ) : x ≤ foldlMax x xs := by
  induction xs generalizing x with
  | nil => simp [foldlMax]
  | cons y ys ih =>
    have h := ih (max x y)
    simp only [foldlMax, List.foldl_cons] at h ⊢
    exact le_trans (le_max_left x y) h

theorem le_foldlMax_of_mem {a : ℤ} (x : ℤ) {xs : List ℤ} (ha : a ∈ xs) :
    a ≤ foldlMax x xs := by
  induction xs generalizing x with
  | nil => cases ha
  | cons y ys ih =>
    simp only [foldlMax, List.foldl_cons]
    rcases List.mem_cons.mp ha with rfl | hmem
    · exact le_trans (le_max_right x a) (le_foldlMax_init _ _)
    · exact ih _ hmem

theorem foldlMax_choice (x : ℤ) (xs : List ℤ) :
    foldlMax x xs = x ∨ foldlMax x xs ∈ xs := by
  induction xs generalizing x with
  | nil => left; rfl
  | cons y ys ih =>
    simp only [foldlMax, List.foldl_cons] at ih ⊢
    rcases ih (max x y) with h | h
    · rcases max_choice x y with he | he
      · left; rw [h, he]
      · right; rw [h, he]; exact List.mem_cons_self y ys
    · right; exact List.mem_cons_of_mem y h

theorem foldlMin_le_init (x : ℤ) (xs : List ℤ) : foldlMin x xs ≤ x := by
  induction xs generalizing x with
  | nil => simp [foldlMin]
  | cons y ys ih =>
    have h := ih (min x y)
    simp only [foldlMin, List.foldl_cons] at h ⊢
    exact le_trans h (min_le_left x y)

theorem colMax_eq_none_iff (l : List ℤ) : colMax l = none ↔ l = [] := by
  cases l <;> simp [colMax]

theorem colMax_mem {l : List ℤ} {m : ℤ} (h : colMax l = some m) : m ∈ l := by
  cases l with
  | nil => simp [colMax] at h
  | cons x xs =>
    simp only [colMax, Option.some.injEq] at h
    rcases foldlMax_choice x xs with hc | hc
    · rw [← h, hc]; exact List.mem_cons_self x xs
    · rw [← h]; exact List.mem_cons_of_mem x hc

theorem le_colMax {l : List ℤ} {m a : ℤ} (h : colMax l = some m) (ha : a ∈ l) :
    a ≤ m := by
  cases l with
  | nil => cases ha
  | cons x xs =>
    simp only [colMax, Option.some.injEq] at h
    rcases List.mem_cons.mp ha with rfl | hmem
    · rw [← h]; exact le_foldlMax_init a xs
    · rw [← h]; exact le_foldlMax_of_mem x hmem

theorem maxOfT_eq_none_iff (table : List Row) : maxOfT table = none ↔ table = [] := by
  rw [maxOfT, colMax_eq_none_iff, List.map_eq_nil_iff]

theorem maxOfT_exists_mem {table : List Row} {m : ℤ} (h : maxOfT table = some m) :
    ∃ r ∈ table, r.t = m := by
  have hmem := colMax_mem h
  rcases List.mem_map.mp hmem with ⟨r, hr, hrt⟩
  exact ⟨r, hr, hrt⟩

theorem t_le_maxOfT {table : List Row} {m : ℤ} {r : Row}
    (h : maxOfT table = some m) (hr : r ∈ table) : r.t ≤ m :=
  le_colMax h (List.mem_map_of_mem Row.t hr)

/-! Facts about the modelled standard deviation and the bin attributes. -/

theorem pandasStdSq_eq_none_iff (xs : List ℤ) :
    pandasStdSq xs = none ↔ xs.length ≤ 1 := by
  unfold pandasStdSq
  split <;> simp_all

theorem infer_eq_none_iff (sub : List Row) :
    infer_bin_attributes sub = none ↔ sub = [] := by
  cases sub <;> simp [infer_bin_attributes]

theorem infer_exists_of_ne_nil {sub : List Row} (h : sub ≠ []) :
    ∃ b, infer_bin_attributes sub = some b := by
  cases sub with
  | nil => exact absurd rfl h
  | cons r rs => exact ⟨_, rfl⟩

theorem infer_sampleSize {sub : List Row} {b : BinRow}
    (h : infer_bin_attributes sub = some b) : b.sampleSize = sub.length := by
  cases sub with
  | nil => simp [infer_bin_attributes] at h
  | cons r rs => injection h with h; rw [← h]

theorem infer_t_sd {sub : List Row} {b : BinRow}
    (h : infer_bin_attributes sub = some b) :
    b.t_sd = pandasStdSq (sub.map Row.t) := by
  cases sub with
  | nil => simp [infer_bin_attributes] at h
  | cons r rs => injection h with h; rw [← h]

theorem infer_daysPerBin {r : Row} {rs : List Row} {b : BinRow}
    (h : infer_bin_attributes (r :: rs) = some b) :
    b.daysPerBin = foldlMax r.t (rs.map Row.t) - foldlMin r.t (rs.map Row.t) + 1 := by
  injection h with h; rw [← h]

theorem infer_haplotypes {sub : List Row} {b : BinRow}
    (h : infer_bin_attributes sub = some b) :
    b.haplotypes = (sub.map Row.snvs).dedup.length := by
  cases sub with
  | nil => simp [infer_bin_attributes] at h
  | cons r rs => injection h with h; rw [← h]

theorem infer_num_mut {sub : List Row} {b : BinRow}
    (h : infer_bin_attributes sub = some b) :
    b.num_mut = sub.length - sub.countP (fun x => decide (x.snvs = "")) := by
  cases sub with
  | nil => simp [infer_bin_attributes] at h
  | cons r rs => injection h with h; rw [← h]

/-! Facts about `attachLabel`, the per-window attribute extraction. -/

theorem attachLabel_mem {lbl : String} {ws : List (List Row)} {bs : List BinRow}
    (h : attachLabel lbl ws = some bs) {b : BinRow} (hb : b ∈ bs) :
    ∃ w ∈ ws, ∃ b0, infer_bin_attributes w = some b0 ∧
      b = { b0 with binning := lbl } := by
  induction ws generalizing bs with
  | nil =>
    simp only [attachLabel, Option.some.injEq] at h
    rw [← h] at hb; cases hb
  | cons w ws ih =>
    rw [attachLabel] at h
    cases hw : infer_bin_attributes w with
    | none => rw [hw] at h; cases h
    | some b0 =>
      rw [hw] at h
      cases hrest : attachLabel lbl ws with
      | none => rw [hrest] at h; cases h
      | some bs' =>
        rw [hrest] at h
        injection h with h
        rw [← h] at hb
        rcases List.mem_cons.mp hb with rfl | hb'
        · exact ⟨w, List.mem_cons_self w ws, b0, hw, rfl⟩
        · rcases ih hrest hb' with ⟨w', hw', b0', hib', hb0'⟩
          exact ⟨w', List.mem_cons_of_mem w hw', b0', hib', hb0'⟩

theorem attachLabel_filter_length {lbl : String} {ws : List (List Row)}
    {bs : List BinRow} (h : attachLabel lbl ws = some bs) (p : ℕ → Bool) :
    (bs.filter (fun b => p b.sampleSize)).length =
      (ws.filter (fun w => p w.length)).length := by
  induction ws generalizing bs with
  | nil =>
    simp only [attachLabel, Option.some.injEq] at h
    rw [← h]; rfl
  | cons w ws ih =>
    rw [attachLabel] at h
    cases hw : infer_bin_attributes w with
    | none => rw [hw] at h; cases h
    | some b0 =>
      rw [hw] at h
      cases hrest : attachLabel lbl ws with
      | none => rw [hrest] at h; cases h
      | some bs' =>
        rw [hrest] at h
        injection h with h
        rw [← h]
        have hsz : b0.sampleSize = w.length := infer_sampleSize hw
        rw [List.filter_cons, List.filter_cons]
        have hproj : ({ b0 with binning := lbl } : BinRow).sampleSize = w.length := hsz
        rw [hproj]
        by_cases hp : p w.length
        · simp [hp, ih hrest]
        · simp [hp, ih hrest]

/-! Facts about the modelled date sort. -/

theorem mem_insertByDate {a r : OutRow} {l : List OutRow} :
    a ∈ insertByDate r l ↔ a = r ∨ a ∈ l := by
  induction l with
  | nil => simp [insertByDate]
  | cons x xs ih =>
    rw [insertByDate]
    by_cases h : x.date ≤ r.date
    · rw [if_pos h]
      simp only [List.mem_cons, ih]
      tauto
    · rw [if_neg h]
      simp only [List.mem_cons]

theorem mem_sortByDate {a : OutRow} {l : List OutRow} :
    a ∈ sortByDate l ↔ a ∈ l := by
  induction l with
  | nil => simp [sortByDate]
  | cons x xs ih =>
    rw [sortByDate, mem_insertByDate, ih, List.mem_cons]

theorem rowHasNaN_eq_false_iff (b : BinRow) :
    rowHasNaN b = false ↔ (b.t_sd ≠ none ∧ b.phi ≠ PhiVal.nan) := by
  rcases b with ⟨t, tsd, phi, n1, n2, d, n3, n4, lbl⟩
  cases tsd <;> cases phi <;> simp [rowHasNaN, PhiVal.isNaN]

/-! Facts about `searchsorted`. -/

theorem searchsorted_le_length (ts : List ℤ) (v : ℤ) :
    searchsorted ts v ≤ ts.length := by
  induction ts with
  | nil => simp [searchsorted]
  | cons x xs ih =>
    rw [searchsorted]
    by_cases h : v ≤ x
    · rw [if_pos h]; exact Nat.zero_le _
    · rw [if_neg h]; simpa using ih

theorem le_get_searchsorted (ts : List ℤ) (v : ℤ)
    (h : searchsorted ts v < ts.length) :
    v ≤ ts.get ⟨searchsorted ts v, h⟩ := by
  induction ts with
  | nil => simp [searchsorted] at h
  | cons x xs ih =>
    by_cases hv : v ≤ x
    · simp only [searchsorted, if_pos hv, List.get]
      exact hv
    · have hlt : searchsorted xs v < xs.length := by
        have := h
        simp only [searchsorted, if_neg hv, List.length_cons] at this
        omega
      have hx := ih hlt
      simp only [searchsorted, if_neg hv]
      simpa using hx

/-! Facts about the slice selected by `searchsorted` on a sorted table. -/

theorem slice_subset (table : List Row) (idx s : ℕ) :
    (table.drop idx).take s ⊆ table := fun _ h =>
  (List.drop_sublist idx table).subset (List.mem_of_mem_take h)

theorem slice_sublist (table : List Row) (idx s : ℕ) :
    ((table.drop idx).take s).Sublist table :=
  (List.take_sublist s _).trans (List.drop_sublist idx table)

theorem slice_t_ge {table : List Row}
    (hs : List.Pairwise (· ≤ ·) (table.map Row.t)) (from_t : ℤ) (s : ℕ)
    {r : Row}
    (hr : r ∈ (table.drop (searchsorted (table.map Row.t) from_t)).take s) :
    from_t ≤ r.t := by
  have hr' : r ∈ table.drop (searchsorted (table.map Row.t) from_t) :=
    List.mem_of_mem_take hr
  set idx := searchsorted (table.map Row.t) from_t with hidx
  have hlt : idx < table.length := by
    by_contra hge
    push_neg at hge
    rw [List.drop_eq_nil_iff.mpr hge] at hr'
    cases hr'
  have hltm : idx < (table.map Row.t).length := by simpa using hlt
  have hfrom : from_t ≤ (table.map Row.t).get ⟨idx, hltm⟩ :=
    le_get_searchsorted _ _ hltm
  have hgetmap : (table.map Row.t).get ⟨idx, hltm⟩ = (table.get ⟨idx, hlt⟩).t := by
    simp
  rw [hgetmap] at hfrom
  have hdrop : table.drop idx = table.get ⟨idx, hlt⟩ :: table.drop (idx + 1) :=
    List.drop_eq_getElem_cons hlt
  rw [hdrop] at hr'
  rcases List.mem_cons.mp hr' with rfl | htail
  · exact hfrom
  · have hp : List.Pairwise (· ≤ ·) (List.map Row.t (table.drop idx)) := by
      rw [List.map_drop]
      exact List.Pairwise.sublist (List.drop_sublist idx (table.map Row.t)) hs
    rw [hdrop, List.map_cons] at hp
    have hle := (List.pairwise_cons.mp hp).1 r.t (List.mem_map_of_mem Row.t htail)
    exact le_trans hfrom hle

/-! Facts about the fixed-width window loop. -/

theorem eqDaysLoop_ne_nil {table : List Row} {days maxT : ℤ} :
    ∀ (fuel : ℕ) (from_t to_t : ℤ) (ws : List (List Row)),
      eqDaysLoop table days maxT fuel from_t to_t = some ws →
      ∀ w ∈ ws, w ≠ [] := by
  intro fuel
  induction fuel with
  | zero => intro from_t to_t ws h; simp [eqDaysLoop] at h
  | succ fuel ih =>
    intro from_t to_t ws h w hw
    rw [eqDaysLoop] at h
    split at h
    · -- to_t < maxT
      split at h
      · cases h
      · rename_i ws' hrec
        injection h with h
        rw [← h] at hw
        split at hw
        · exact ih _ _ _ hrec w hw
        · rename_i hne
          rcases List.mem_cons.mp hw with rfl | hw'
          · intro hnil
            rw [hnil] at hne
            exact hne rfl
          · exact ih _ _ _ hrec w hw'
    · injection h with h
      rw [← h] at hw
      cases hw

/-! Facts about the fixed-size window loop. -/

theorem eqSizeLoop_ne_nil {table : List Row} {s : ℕ} :
    ∀ (fuel : ℕ) (from_t to_t : ℤ) (ai : ℕ) (ws : List (List Row)),
      eqSizeLoop table s fuel from_t to_t ai = some ws → ∀ w ∈ ws, w ≠ [] := by
  intro fuel
  induction fuel with
  | zero => intro _ _ _ ws h; simp [eqSizeLoop] at h
  | succ fuel ih =>
    intro from_t to_t ai ws h w hw
    rw [eqSizeLoop] at h
    split at h
    · cases h
    · split at h
      · split at h
        · cases h
        · rename_i to_t2 hsubmax
          split at h
          · cases h
          · rename_i ws' hrec
            injection h with h
            rw [← h] at hw
            rcases List.mem_cons.mp hw with rfl | hw'
            · rcases maxOfT_exists_mem hsubmax with ⟨rmax, hrmem, hrt⟩
              split
              · rename_i hft
                apply List.ne_nil_of_mem (a := rmax)
                rw [List.mem_filter]
                exact ⟨slice_subset _ _ _ hrmem, by simp [hrt]⟩
              · exact List.ne_nil_of_mem hrmem
            · exact ih _ _ _ _ hrec w hw'
      · injection h with h
        rw [← h] at hw
        cases hw

theorem eqSizeLoop_lower {table : List Row} {s : ℕ}
    (hs : List.Pairwise (· ≤ ·) (table.map Row.t)) :
    ∀ (fuel : ℕ) (from_t to_t : ℤ) (ai : ℕ) (ws : List (List Row)),
      eqSizeLoop table s fuel from_t to_t ai = some ws →
      ∀ w ∈ ws, ∀ r ∈ w, from_t ≤ r.t := by
  intro fuel
  induction fuel with
  | zero => intro _ _ _ ws h; simp [eqSizeLoop] at h
  | succ fuel ih =>
    intro from_t to_t ai ws h w hw r hr
    rw [eqSizeLoop] at h
    split at h
    · cases h
    · split at h
      · split at h
        · cases h
        · rename_i to_t2 hsubmax
          split at h
          · cases h
          · rename_i ws' hrec
            injection h with h
            rw [← h] at hw
            rcases List.mem_cons.mp hw with rfl | hw'
            · split at hr
              · rename_i hft
                rw [List.mem_filter] at hr
                have hrt := of_decide_eq_true hr.2
                omega
              · exact slice_t_ge hs from_t s hr
            · have hge := ih _ _ _ _ hrec w hw' r hr
              rcases maxOfT_exists_mem hsubmax with ⟨rmax, hrmem, hrt⟩
              have hfr : from_t ≤ rmax.t := slice_t_ge hs from_t s hrmem
              omega
      · injection h with h
        rw [← h] at hw
        cases hw

theorem eqSizeLoop_pairwise {table : List Row} {s : ℕ}
    (hs : List.Pairwise (· ≤ ·) (table.map Row.t)) :
    ∀ (fuel : ℕ) (from_t to_t : ℤ) (ai : ℕ) (ws : List (List Row)),
      eqSizeLoop table s fuel from_t to_t ai = some ws →
      ws.Pairwise (fun w1 w2 => ∀ r1 ∈ w1, ∀ r2 ∈ w2, r1.t < r2.t) := by
  intro fuel
  induction fuel with
  | zero => intro _ _ _ ws h; simp [eqSizeLoop] at h
  | succ fuel ih =>
    intro from_t to_t ai ws h
    rw [eqSizeLoop] at h
    split at h
    · cases h
    · split at h
      · split at h
        · cases h
        · rename_i to_t2 hsubmax
          split at h
          · cases h
          · rename_i ws' hrec
            injection h with h
            rw [← h, List.pairwise_cons]
            constructor
            · intro w2 hw2 r1 hr1 r2 hr2
              have h1 : r1.t ≤ to_t2 := by
                split at hr1
                · rename_i hft
                  rw [List.mem_filter] at hr1
                  have hrt := of_decide_eq_true hr1.2
                  omega
                · exact t_le_maxOfT hsubmax hr1
              have h2 : to_t2 + 1 ≤ r2.t :=
                eqSizeLoop_lower hs fuel _ _ _ _ hrec w2 hw2 r2 hr2
              omega
            · exact ih _ _ _ _ hrec
      · injection h with h
        rw [← h]
        exact List.Pairwise.nil

theorem eqSizeLoop_undersized {table : List Row} {s : ℕ}
    (hs : List.Pairwise (· ≤ ·) (table.map Row.t)) :
    ∀ (fuel : ℕ) (from_t to_t : ℤ) (ai : ℕ) (ws : List (List Row)),
      eqSizeLoop table s fuel from_t to_t ai = some ws →
      (ws.filter (fun w => decide (w.length < s))).length ≤ 1 := by
  intro fuel
  induction fuel with
  | zero => intro _ _ _ ws h; simp [eqSizeLoop] at h
  | succ fuel ih =>
    intro from_t to_t ai ws h
    rw [eqSizeLoop] at h
    split at h
    · cases h
    · split at h
      · split at h
        · cases h
        · rename_i to_t2 hsubmax
          split at h
          · cases h
          · rename_i ws' hrec
            injection h with h
            rw [← h, List.filter_cons]
            by_cases hu : (if from_t = to_t2 then
                table.filter (fun x => decide (x.t = to_t2))
              else (table.drop (searchsorted (table.map Row.t) from_t)).take s).length < s
            · have hslice :
                  ((table.drop (searchsorted (table.map Row.t) from_t)).take s).length < s := by
                split at hu
                · rename_i hft
                  have hall : ∀ r ∈ (table.drop (searchsorted (table.map Row.t) from_t)).take s,
                      (fun x => decide (x.t = to_t2)) r = true := by
                    intro r hr
                    have h1 : from_t ≤ r.t := slice_t_ge hs from_t s hr
                    have h2 : r.t ≤ to_t2 := t_le_maxOfT hsubmax hr
                    simp only [decide_eq_true_eq]
                    omega
                  have hle :
                      ((table.drop (searchsorted (table.map Row.t) from_t)).take s).length ≤
                        (table.filter (fun x => decide (x.t = to_t2))).length := by
                    conv_lhs => rw [← List.filter_eq_self.mpr hall]
                    exact (List.Sublist.filter _ (slice_sublist table _ s)).length_le
                  omega
                · exact hu
              have hlen : table.length < searchsorted (table.map Row.t) from_t + s := by
                rw [List.length_take, List.length_drop] at hslice
                omega
              have hws' : ws' = [] := by
                cases fuel with
                | zero => simp [eqSizeLoop] at hrec
                | succ fuel2 =>
                  rw [eqSizeLoop] at hrec
                  split at hrec
                  · cases hrec
                  · split at hrec
                    · rename_i hg2
                      exact absurd hg2.2 (by omega)
                    · injection hrec with hrec
                      exact hrec.symm
              subst hws'
              simp [hu]
            · rw [if_neg (by simpa using hu)]
              exact ih _ _ _ _ hrec
      · injection h with h
        rw [← h]
        simp

/-! Structure of the two binner wrappers and of the aggregator. -/

theorem binning_equal_days_eq {table : List Row} {days : ℤ} {bins : List BinRow}
    (h : binning_equal_days table days = some bins) :
    ∃ ws, (∀ w ∈ ws, w ≠ []) ∧
      attachLabel ("eq_days_" ++ toString days) ws = some bins := by
  cases table with
  | nil => simp [binning_equal_days] at h
  | cons r rs =>
    rw [binning_equal_days] at h
    split at h
    · cases h
    · rename_i ws hloop
      exact ⟨ws, eqDaysLoop_ne_nil _ _ _ _ hloop, h⟩

theorem binning_equal_size_eq {table : List Row} {s : ℕ} {bins : List BinRow}
    (h : binning_equal_size table s = some bins) :
    ∃ ws, eqSizeLoop table s (((maxOfT table).getD 0).toNat + 2) 0 0 0 = some ws ∧
      attachLabel ("eq_size_" ++ toString s) ws = some bins := by
  rw [binning_equal_size] at h
  split at h
  · cases h
  · rename_i ws hloop
    exact ⟨ws, hloop, h⟩

theorem mem_binning_days {table : List Row} {days : ℤ} {bins : List BinRow}
    (h : binning_equal_days table days = some bins) {b : BinRow} (hb : b ∈ bins) :
    ∃ w, w ≠ [] ∧ ∃ b0, infer_bin_attributes w = some b0 ∧
      b = { b0 with binning := "eq_days_" ++ toString days } := by
  rcases binning_equal_days_eq h with ⟨ws, hne, hlab⟩
  rcases attachLabel_mem hlab hb with ⟨w, hw, b0, hib, hb0⟩
  exact ⟨w, hne w hw, b0, hib, hb0⟩

theorem mem_binning_size {table : List Row} {s : ℕ} {bins : List BinRow}
    (h : binning_equal_size table s = some bins) {b : BinRow} (hb : b ∈ bins) :
    ∃ w, w ≠ [] ∧ ∃ b0, infer_bin_attributes w = some b0 ∧
      b = { b0 with binning := "eq_size_" ++ toString s } := by
  rcases binning_equal_size_eq h with ⟨ws, hloop, hlab⟩
  rcases attachLabel_mem hlab hb with ⟨w, hw, b0, hib, hb0⟩
  exact ⟨w, eqSizeLoop_ne_nil _ _ _ _ _ hloop w hw, b0, hib, hb0⟩

theorem concatDays_mem {table : List Row} {ds : List ℤ} {l : List BinRow}
    (h : concatDays table ds = some l) {b : BinRow} (hb : b ∈ l) :
    ∃ d ∈ ds, ∃ bins, binning_equal_days table d = some bins ∧ b ∈ bins := by
  induction ds generalizing l with
  | nil =>
    simp only [concatDays, Option.some.injEq] at h
    rw [← h] at hb; cases hb
  | cons d ds ih =>
    rw [concatDays] at h
    split at h
    · rename_i bins rest hbins hrest
      injection h with h
      rw [← h] at hb
      rcases List.mem_append.mp hb with hb1 | hb2
      · exact ⟨d, List.mem_cons_self d ds, bins, hbins, hb1⟩
      · rcases ih hrest hb2 with ⟨d', hd', bins', hbins', hb'⟩
        exact ⟨d', List.mem_cons_of_mem d hd', bins', hbins', hb'⟩
    · cases h

theorem concatSizes_mem {table : List Row} {ss : List ℕ} {l : List BinRow}
    (h : concatSizes table ss = some l) {b : BinRow} (hb : b ∈ l) :
    ∃ s ∈ ss, ∃ bins, binning_equal_size table s = some bins ∧ b ∈ bins := by
  induction ss generalizing l with
  | nil =>
    simp only [concatSizes, Option.some.injEq] at h
    rw [← h] at hb; cases hb
  | cons s ss ih =>
    rw [concatSizes] at h
    split at h
    · rename_i bins rest hbins hrest
      injection h with h
      rw [← h] at hb
      rcases List.mem_append.mp hb with hb1 | hb2
      · exact ⟨s, List.mem_cons_self s ss, bins, hbins, hb1⟩
      · rcases ih hrest hb2 with ⟨s', hs', bins', hbins', hb'⟩
        exact ⟨s', List.mem_cons_of_mem s hs', bins', hbins', hb'⟩
    · cases h

/-- Every row of the concatenated table is the attribute record of some
non-empty window, with some label attached. -/
theorem concat_bin_link {table : List Row} {sizes : List ℕ} {days : List ℤ}
    {l : List BinRow} (h : concatenated_bins table sizes days = some l)
    {b : BinRow} (hb : b ∈ l) :
    ∃ w, w ≠ [] ∧ ∃ b0 lbl, infer_bin_attributes w = some b0 ∧
      b = { b0 with binning := lbl } := by
  rw [concatenated_bins] at h
  split at h
  · rename_i la lb hla hlb
    injection h with h
    rw [← h] at hb
    rcases List.mem_append.mp hb with hb1 | hb2
    · rcases concatDays_mem hla hb1 with ⟨d, _, bins, hbins, hbmem⟩
      rcases mem_binning_days hbins hbmem with ⟨w, hwne, b0, hib, hb0⟩
      exact ⟨w, hwne, b0, _, hib, hb0⟩
    · rcases concatSizes_mem hlb hb2 with ⟨s, _, bins, hbins, hbmem⟩
      rcases mem_binning_size hbins hbmem with ⟨w, hwne, b0, hib, hb0⟩
      exact ⟨w, hwne, b0, _, hib, hb0⟩
  · cases h

/-- Unfolds `calculate_phi_per_bin` into its three stages. -/
theorem calculate_eq {table : List Row} {sizes : List ℕ} {days : List ℤ}
    {out : List OutRow} (h : calculate_phi_per_bin table sizes days = some out) :
    ∃ minDate allBins,
      colMin (table.filterMap Row.date) = some minDate ∧
      concatenated_bins table sizes days = some allBins ∧
      out = sortByDate ((allBins.filter (fun b => !rowHasNaN b)).map
        (fun b => { toBinRow := b, date := minDate + b.t })) := by
  rw [calculate_phi_per_bin] at h
  split at h
  · cases h
  · rename_i minDate hmin
    split at h
    · cases h
    · rename_i allBins hbins
      injection h with h
      exact ⟨minDate, allBins, hmin, hbins, h.symm⟩

/-! The claims. -/

/-- C3: the phi estimator returns `0` whenever one of the two rates is zero,
returns NaN whenever `haploRate ≥ mutRate` with both strictly positive, and
in every case returns one of its three defined outcomes, so no exception
escapes `optim`. -/
theorem C3_optim_guards (hr mr : ℚ) :
    ((hr = 0 ∨ mr = 0) → optim hr mr = PhiVal.zero) ∧
    (0 < hr → 0 < mr → mr ≤ hr → optim hr mr = PhiVal.nan) ∧
    (optim hr mr = PhiVal.zero ∨ optim hr mr = PhiVal.nan ∨
      optim hr mr = PhiVal.minimized hr mr) := by
  refine ⟨fun h0 => ?_, fun hhr hmr hge => ?_, ?_⟩
  · rw [optim, if_pos h0]
  · rw [optim, if_neg ?_, if_pos hge]
    rintro (h | h)
    · exact absurd h (ne_of_gt hhr)
    · exact absurd h (ne_of_gt hmr)
  · rw [optim]
    split
    · exact Or.inl rfl
    · split
      · exact Or.inr (Or.inl rfl)
      · exact Or.inr (Or.inr rfl)

/-- Witness for C3 at the rates `(0, 5)` and `(3, 2)`. -/
theorem C3_witness : optim 0 5 = PhiVal.zero ∧ optim 3 2 = PhiVal.nan :=
  ⟨(C3_optim_guards 0 5).1 (Or.inl rfl),
   (C3_optim_guards 3 2).2.1 (by norm_num) (by norm_num) (by norm_num)⟩

/-- C8: every attribute record built from a non-empty bin satisfies
`daysPerBin ≥ 1`, `haplotypes ≤ sampleSize` and `num_mut ≤ sampleSize`. -/
theorem C8_bin_attribute_invariants (sub : List Row) (b : BinRow)
    (h : infer_bin_attributes sub = some b) :
    1 ≤ b.daysPerBin ∧ b.haplotypes ≤ b.sampleSize ∧ b.num_mut ≤ b.sampleSize := by
  cases sub with
  | nil => simp [infer_bin_attributes] at h
  | cons r rs =>
    refine ⟨?_, ?_, ?_⟩
    · rw [infer_daysPerBin h]
      have h1 := foldlMin_le_init r.t (rs.map Row.t)
      have h2 := le_foldlMax_init r.t (rs.map Row.t)
      omega
    · rw [infer_haplotypes h, infer_sampleSize h]
      calc ((r :: rs).map Row.snvs).dedup.length
          ≤ ((r :: rs).map Row.snvs).length := (List.dedup_sublist _).length_le
        _ = (r :: rs).length := List.length_map _ _
    · rw [infer_num_mut h, infer_sampleSize h]
      exact Nat.sub_le _ _

/-- Witness for C8 on the one-row bin `singleTable`. -/
theorem C8_witness :
    infer_bin_attributes singleTable = some singleBin ∧
    (1 ≤ singleBin.daysPerBin ∧ singleBin.haplotypes ≤ singleBin.sampleSize ∧
      singleBin.num_mut ≤ singleBin.sampleSize) :=
  ⟨by decide, C8_bin_attribute_invariants singleTable singleBin (by decide)⟩

/-- C6 counterexample: the bin of two sequences both on day `5` has exactly
one distinct `t` value, yet its `t_sd` is defined (the sample standard
deviation `0`, not NaN), refuting "`t_sd` is NaN exactly when the bin has
0 or 1 distinct `t` values": the code's criterion counts observations
(`ddof = 1` needs at least two), not distinct values. -/
theorem C6_counterexample :
    Option.map BinRow.t_sd
        (infer_bin_attributes [⟨5, none, ""⟩, ⟨5, none, ""⟩]) = some (some 0) ∧
    (([⟨5, none, ""⟩, ⟨5, none, ""⟩] : List Row).map Row.t).dedup.length = 1 := by
  decide

/-- C6 (amended): `t_sd` is the sample standard deviation (`ddof = 1`) of
`t` over the bin, represented by its square to stay in `ℚ`, and it is NaN
exactly when the bin holds at most one sequence — not at most one distinct
`t` value. -/
theorem C6_t_sd_amended (sub : List Row) (b : BinRow)
    (h : infer_bin_attributes sub = some b) :
    (b.t_sd = none ↔ sub.length ≤ 1) ∧
    (1 < sub.length → b.t_sd =
      some ((((sub.map Row.t).map (fun x => ((x : ℚ) -
          ((sub.map Row.t).map (fun y => (y : ℚ))).sum /
            (((sub.map Row.t).length : ℚ)))^2)).sum) /
        (((sub.map Row.t).length : ℚ) - 1))) := by
  have ht := infer_t_sd h
  constructor
  · rw [ht, pandasStdSq_eq_none_iff, List.length_map]
  · intro hlen
    rw [ht, pandasStdSq, if_neg (by rw [List.length_map]; omega)]

/-- Witness for C6 on the two-day bin `spreadTable` (sample variance `2`). -/
theorem C6_witness :
    infer_bin_attributes spreadTable = some spreadBin ∧
    ((spreadBin.t_sd = none ↔ spreadTable.length ≤ 1) ∧
      (1 < spreadTable.length → spreadBin.t_sd = some 2)) :=
  ⟨by decide, C6_t_sd_amended spreadTable spreadBin (by decide)⟩

/-- C5 counterexample: the label carried by a fixed-width bin of width 1 is
`"eq_days_1"`, not `"fixed-width-1"` as the claim states. -/
theorem C5_counterexample :
    Option.map (List.map BinRow.binning) (binning_equal_days pairTable 1) =
      some ["eq_days_1"] ∧ "eq_days_1" ≠ "fixed-width-1" := by
  decide

/-- C5 (amended): every row emitted by the fixed-width binner with width `w`
carries the label `"eq_days_<w>"`, and every row emitted by the fixed-size
binner with size `s` carries the label `"eq_size_<s>"`. -/
theorem C5_labels_amended (table : List Row) (w : ℤ) (s : ℕ) :
    (∀ bins, binning_equal_days table w = some bins →
      ∀ b ∈ bins, b.binning = "eq_days_" ++ toString w) ∧
    (∀ bins, binning_equal_size table s = some bins →
      ∀ b ∈ bins, b.binning = "eq_size_" ++ toString s) := by
  constructor
  · intro bins h b hb
    rcases mem_binning_days h hb with ⟨w', _, b0, _, hb0⟩
    rw [hb0]
  · intro bins h b hb
    rcases mem_binning_size h hb with ⟨w', _, b0, _, hb0⟩
    rw [hb0]

/-- Witness for C5 on `sizeTable` with width 1 and size 2. -/
theorem C5_witness :
    daysBinA.binning = "eq_days_" ++ toString (1 : ℤ) ∧
    sizeBinB.binning = "eq_size_" ++ toString (2 : ℕ) :=
  ⟨(C5_labels_amended sizeTable 1 2).1 [daysBinA, daysBinB] (by decide)
      daysBinA (by decide),
   (C5_labels_amended sizeTable 1 2).2 [sizeBinA, sizeBinB] (by decide)
      sizeBinB (by decide)⟩

/-- C1: the `while to_t < max(t)` guard of `binning_equal_days` is tested
before the window is processed, so the window containing `max(t)` is never
emitted and the rows falling in it are dropped.  On ten sequences covering
days `0..9`: width 10 emits no bin at all (the claim and the specification's
own end-to-end example expect exactly one bin of all ten rows), and width 5
emits only the bin of days `0..4` (five rows), silently dropping the five
rows of the complete final window `[5, 9]`.  This refutes both "processes
exactly one trailing window whose upper bound reaches or exceeds max(t)" and
the partition property. -/
theorem C1_trailing_window_dropped :
    binning_equal_days sampleTableTen 10 = some [] ∧
    Option.map (List.map BinRow.sampleSize) (binning_equal_days sampleTableTen 5) =
      some [5] := by
  decide

/-- C2 counterexample: on two sequences at days `0` and `1` with width 1, the
concatenated table holds one row whose `phi` is `0` (not NaN), yet the final
table is empty: `dropna()` removed the row because its `t_sd` is NaN (a
single-sequence bin), refuting "every concatenated row whose phi is not NaN
is retained". -/
theorem C2_counterexample :
    concatenated_bins pairTable [] [1] = some [pairBin] ∧
    pairBin.phi ≠ PhiVal.nan ∧
    calculate_phi_per_bin pairTable [] [1] = some [] := by
  decide

/-- C2 (amended): the aggregator removes exactly the concatenated rows that
contain some NaN entry (`phi` or `t_sd`): the final table has no NaN `phi`;
every concatenated row without any NaN entry appears in the final table; and
every final row stems from a NaN-free concatenated row.  A row whose `phi`
is not NaN can still be dropped when its `t_sd` is NaN. -/
theorem C2_dropna_amended (table : List Row) (sizes : List ℕ) (days : List ℤ)
    (allBins : List BinRow) (out : List OutRow)
    (hc : concatenated_bins table sizes days = some allBins)
    (ho : calculate_phi_per_bin table sizes days = some out) :
    (∀ o ∈ out, o.phi ≠ PhiVal.nan) ∧
    (∀ b ∈ allBins, rowHasNaN b = false → ∃ o ∈ out, o.toBinRow = b) ∧
    (∀ o ∈ out, o.toBinRow ∈ allBins ∧ rowHasNaN o.toBinRow = false) := by
  rcases calculate_eq ho with ⟨minDate, allBins', hmin, hbins', hout⟩
  rw [hc] at hbins'
  injection hbins' with he
  subst he
  refine ⟨?_, ?_, ?_⟩
  · intro o ho'
    rw [hout, mem_sortByDate] at ho'
    rcases List.mem_map.mp ho' with ⟨b, hbk, hob⟩
    rcases List.mem_filter.mp hbk with ⟨_, hkeep⟩
    have hnan : rowHasNaN b = false := by simpa using hkeep
    rw [← hob]
    exact ((rowHasNaN_eq_false_iff b).mp hnan).2
  · intro b hb hnan
    refine ⟨{ toBinRow := b, date := minDate + b.t }, ?_, rfl⟩
    rw [hout, mem_sortByDate]
    apply List.mem_map_of_mem
    rw [List.mem_filter]
    exact ⟨hb, by simp [hnan]⟩
  · intro o ho'
    rw [hout, mem_sortByDate] at ho'
    rcases List.mem_map.mp ho' with ⟨b, hbk, hob⟩
    rcases List.mem_filter.mp hbk with ⟨hmem, hkeep⟩
    have hnan : rowHasNaN b = false := by simpa using hkeep
    rw [← hob]
    exact ⟨hmem, hnan⟩

/-- Witness for C2 (amended) on `tripleTable` with widths `[2]`. -/
theorem C2_witness :
    ((∀ o ∈ [tripleOut], o.phi ≠ PhiVal.nan) ∧
     (∀ b ∈ [tripleBin], rowHasNaN b = false →
        ∃ o ∈ [tripleOut], o.toBinRow = b) ∧
     (∀ o ∈ [tripleOut], o.toBinRow ∈ [tripleBin] ∧
        rowHasNaN o.toBinRow = false)) :=
  C2_dropna_amended tripleTable [] [2] [tripleBin] [tripleOut]
    (by decide) (by decide)

/-- C9: no row of the final aggregated table contains a NaN entry — neither
`phi` nor `t_sd` — and in particular no row with `sampleSize = 1` survives,
because a single-sequence bin always has NaN `t_sd` and `dropna()` removes
the whole row. -/
theorem C9_no_nan_rows (table : List Row) (sizes : List ℕ) (days : List ℤ)
    (out : List OutRow) (ho : calculate_phi_per_bin table sizes days = some out) :
    ∀ o ∈ out, o.t_sd ≠ none ∧ o.phi ≠ PhiVal.nan ∧ o.sampleSize ≠ 1 := by
  intro o ho'
  rcases calculate_eq ho with ⟨minDate, allBins, hmin, hbins, hout⟩
  rw [hout, mem_sortByDate] at ho'
  rcases List.mem_map.mp ho' with ⟨b, hbk, hob⟩
  rcases List.mem_filter.mp hbk with ⟨hmem, hkeep⟩
  have hnan : rowHasNaN b = false := by simpa using hkeep
  rcases (rowHasNaN_eq_false_iff b).mp hnan with ⟨hts, hphi⟩
  have hsz : b.sampleSize ≠ 1 := by
    intro h1
    rcases concat_bin_link hbins hmem with ⟨w, hwne, b0, lbl, hib, hb0⟩
    have hlen : b0.sampleSize = w.length := infer_sampleSize hib
    have htsd : b0.t_sd = pandasStdSq (w.map Row.t) := infer_t_sd hib
    have hbs : b.sampleSize = b0.sampleSize := by rw [hb0]
    have hbt : b.t_sd = b0.t_sd := by rw [hb0]
    apply hts
    rw [hbt, htsd, pandasStdSq_eq_none_iff, List.length_map]
    omega
  rw [← hob]
  exact ⟨hts, hphi, hsz⟩

/-- Witness for C9 on `tripleTable` with widths `[2]`. -/
theorem C9_witness :
    tripleOut.t_sd ≠ none ∧ tripleOut.phi ≠ PhiVal.nan ∧
      tripleOut.sampleSize ≠ 1 :=
  C9_no_nan_rows tripleTable [] [2] [tripleOut] (by decide)
    tripleOut (by decide)

/-- C4: on a table sorted by `t`, at most one bin emitted by the fixed-size
binner has fewer than `size` rows (day-snapping only ever grows a window,
and an under-filled slice can only occur at the end of the table, where the
loop guard `actual_index + s <= len(table)` then stops the iteration). -/
theorem C4_at_most_one_undersized (table : List Row) (s : ℕ)
    (hsorted : List.Pairwise (· ≤ ·) (table.map Row.t))
    (bins : List BinRow) (h : binning_equal_size table s = some bins) :
    (bins.filter (fun b => decide (b.sampleSize < s))).length ≤ 1 := by
  rcases binning_equal_size_eq h with ⟨ws, hloop, hlab⟩
  exact (attachLabel_filter_length hlab (fun n => decide (n < s))).trans_le
    (eqSizeLoop_undersized hsorted _ _ _ _ _ hloop)

/-- Witness for C4 on `sizeTable` with size 2 (both bins have 2 rows). -/
theorem C4_witness :
    List.Pairwise (· ≤ ·) (sizeTable.map Row.t) ∧
    (([sizeBinA, sizeBinB].filter (fun b => decide (b.sampleSize < 2))).length ≤ 1) :=
  ⟨by decide,
   C4_at_most_one_undersized sizeTable 2 (by decide) [sizeBinA, sizeBinB] (by decide)⟩

/-- C10: on a table sorted by `t`, the windows emitted by the fixed-size
binner are pairwise disjoint — no input row belongs to two of them — because
each new window starts at the first row whose `t` is at least the previous
window's maximum `t` plus one, so all rows of later windows have strictly
larger `t`. -/
theorem C10_bins_disjoint (table : List Row) (s : ℕ)
    (hsorted : List.Pairwise (· ≤ ·) (table.map Row.t))
    (ws : List (List Row))
    (h : eqSizeLoop table s (((maxOfT table).getD 0).toNat + 2) 0 0 0 = some ws) :
    ws.Pairwise (fun w1 w2 => ∀ r, r ∈ w1 → r ∉ w2) := by
  have hp := eqSizeLoop_pairwise hsorted _ _ _ _ _ h
  exact hp.imp (fun hlt r hr1 hr2 => lt_irrefl r.t (hlt r hr1 r hr2))

/-- Witness for C10 on `sizeTable` with size 2. -/
theorem C10_witness :
    sizeWindows.Pairwise (fun w1 w2 => ∀ r, r ∈ w1 → r ∉ w2) :=
  C10_bins_disjoint sizeTable 2 (by decide) sizeWindows (by decide)

end GInCovPipe
